import Mathlib

/-!
Verification development for a Whitespace interpreter written in Rust
(`src/lexer.rs`, `src/parser.rs`, `src/interpreter.rs`).

The decoder (`parser.rs`) and the virtual machine (`interpreter.rs`) are
shallowly embedded as executable Lean functions:

* machine integers (`i32`) are modelled as `Int` together with an explicit
  two's-complement reduction `wrap32` applied exactly where the Rust
  arithmetic can overflow (release-mode wrap-around semantics);
* Rust panics (out-of-bounds vector indexing in `Parser::advance` and
  `Vec::swap`, `unimplemented!`) are modelled as explicit error values,
  kept distinct from the `anyhow` error results of the original code;
* the host console, stdin and stdout used by the I/O instructions are
  modelled as explicit input streams and an output buffer carried in the
  machine state.
-/

namespace Whitespace

/-- Tokens produced by the lexer (`lexer.rs`, `enum Token`). -/
inductive Token where
  | Space
  | Tab
  | LineFeed
deriving DecidableEq, Repr

/-- Instructions produced by the decoder (`parser.rs`, `enum Instruction`). -/
inductive Instruction where
  | Push (n : Int)
  | Duplicate
  | Copy (n : Int)
  | Swap
  | Discard
  | Slide (n : Int)
  | Add
  | Substract
  | Multiply
  | Divide
  | Modulo
  | HeapStore
  | HeapRetrieve
  | MarkLocation (label : String)
  | Call (label : String)
  | Jump (label : String)
  | JumpIfZero (label : String)
  | JumpIfNegative (label : String)
  | EndSubroutine
  | EndProgram
  | OutputChar
  | OutputNumber
  | ReadChar
  | ReadNumber
deriving DecidableEq, Repr

/-- Failure modes of the decoder.  `decodeError` corresponds to the
`bail!(...)` results of `parser.rs`; `panicOutOfBounds` models the Rust
panic raised by `Parser::advance` (`self.input[self.current - 1]`) when the
token vector is exhausted: `advance` performs an unchecked index, so running
out of tokens aborts the process instead of returning an error. -/
inductive ParseError where
  | panicOutOfBounds
  | decodeError (msg : String)
deriving DecidableEq, Repr

/-- Holds the value `true` exactly on the `bail!`-style decode errors of the decoder. -/
def ParseError.isDecodeErr : ParseError → Bool
  | .decodeError _ => true
  | .panicOutOfBounds => false

/-- Two's-complement reduction of an integer into the `i32` range
`[-2^31, 2^31)`; Rust release-mode overflow semantics. -/
def wrap32 (x : Int) : Int :=
  (x + 2 ^ 31) % 2 ^ 32 - 2 ^ 31

/-- The digit loop of `Parser::parse_number`: each `Space` shifts the
accumulator left (`value <<= 1`, a wrapping shift on `i32`), each `Tab`
shifts and adds one, and a `LineFeed` terminates.  Exhausting the tokens
inside the loop hits the unchecked index of `advance` and panics. -/
def parse_number_loop (value : Int) : List Token → Except ParseError (Int × List Token)
  | [] => .error .panicOutOfBounds
  | Token.Space :: rest => parse_number_loop (wrap32 (2 * value)) rest
  | Token.Tab :: rest => parse_number_loop (wrap32 (2 * value) + 1) rest
  | Token.LineFeed :: rest => .ok (value, rest)

/-- Model of `Parser::parse_number`: a sign token (`Space` = +1, `Tab` = -1, anything
else is a decode error), then the binary digit loop, then `Ok(value * sign)`
(the final multiplication wraps on `i32`). -/
def parse_number (tokens : List Token) : Except ParseError (Int × List Token) :=
  match tokens with
  | [] => .error .panicOutOfBounds
  | Token.Space :: rest =>
    match parse_number_loop 0 rest with
    | .error e => .error e
    | .ok (value, remaining) => .ok (wrap32 (value * 1), remaining)
  | Token.Tab :: rest =>
    match parse_number_loop 0 rest with
    | .error e => .error e
    | .ok (value, remaining) => .ok (wrap32 (value * -1), remaining)
  | Token.LineFeed :: _ => .error (.decodeError "invalid sign specifier")

/-- The character loop of `Parser::parse_label`: `Space` and `Tab` are
appended as literal space / tab characters, `LineFeed` terminates, and an
exhausted token vector panics in `advance`. -/
def parse_label_loop (label : String) : List Token → Except ParseError (String × List Token)
  | [] => .error .panicOutOfBounds
  | Token.Space :: rest => parse_label_loop (label.push ' ') rest
  | Token.Tab :: rest => parse_label_loop (label.push '\t') rest
  | Token.LineFeed :: rest => .ok (label, rest)

/-- Model of `Parser::parse_label`. -/
def parse_label (tokens : List Token) : Except ParseError (String × List Token) :=
  parse_label_loop "" tokens

/-- Model of `Parser::parse_stack_manipulation` (entered after a `Space` prefix). -/
def parse_stack_manipulation (tokens : List Token) : Except ParseError (Instruction × List Token) :=
  match tokens with
  | [] => .error .panicOutOfBounds
  | Token.Space :: rest =>
    match parse_number rest with
    | .error e => .error e
    | .ok (number, remaining) => .ok (Instruction.Push number, remaining)
  | Token.Tab :: rest =>
    match rest with
    | [] => .error .panicOutOfBounds
    | Token.Space :: rest2 =>
      match parse_number rest2 with
      | .error e => .error e
      | .ok (number, remaining) => .ok (Instruction.Copy number, remaining)
    | Token.LineFeed :: rest2 =>
      match parse_number rest2 with
      | .error e => .error e
      | .ok (number, remaining) => .ok (Instruction.Slide number, remaining)
    | Token.Tab :: _ => .error (.decodeError "invalid stack manipulation instruction")
  | Token.LineFeed :: rest =>
    match rest with
    | [] => .error .panicOutOfBounds
    | Token.Tab :: rest2 => .ok (Instruction.Swap, rest2)
    | Token.LineFeed :: rest2 => .ok (Instruction.Discard, rest2)
    | Token.Space :: rest2 => .ok (Instruction.Duplicate, rest2)

/-- Model of `Parser::parse_arithmetic` (entered after a `Tab Space` prefix). -/
def parse_arithmetic (tokens : List Token) : Except ParseError (Instruction × List Token) :=
  match tokens with
  | [] => .error .panicOutOfBounds
  | Token.Space :: rest =>
    match rest with
    | [] => .error .panicOutOfBounds
    | Token.Space :: rest2 => .ok (Instruction.Add, rest2)
    | Token.Tab :: rest2 => .ok (Instruction.Substract, rest2)
    | Token.LineFeed :: rest2 => .ok (Instruction.Multiply, rest2)
  | Token.Tab :: rest =>
    match rest with
    | [] => .error .panicOutOfBounds
    | Token.Space :: rest2 => .ok (Instruction.Divide, rest2)
    | Token.Tab :: rest2 => .ok (Instruction.Modulo, rest2)
    | Token.LineFeed :: _ => .error (.decodeError "invalid arithmetic instruction")
  | Token.LineFeed :: _ => .error (.decodeError "invalid arithmetic instruction")

/-- Model of `Parser::parse_heap_access` (entered after a `Tab Tab` prefix). -/
def parse_heap_access (tokens : List Token) : Except ParseError (Instruction × List Token) :=
  match tokens with
  | [] => .error .panicOutOfBounds
  | Token.Space :: rest => .ok (Instruction.HeapStore, rest)
  | Token.Tab :: rest => .ok (Instruction.HeapRetrieve, rest)
  | Token.LineFeed :: _ => .error (.decodeError "invalid heap instruction")

/-- Model of `Parser::parse_flow_control` (entered after a `LineFeed` prefix). -/
def parse_flow_control (tokens : List Token) : Except ParseError (Instruction × List Token) :=
  match tokens with
  | [] => .error .panicOutOfBounds
  | Token.Space :: rest =>
    match rest with
    | [] => .error .panicOutOfBounds
    | Token.Space :: rest2 =>
      match parse_label rest2 with
      | .error e => .error e
      | .ok (label, remaining) => .ok (Instruction.MarkLocation label, remaining)
    | Token.Tab :: rest2 =>
      match parse_label rest2 with
      | .error e => .error e
      | .ok (label, remaining) => .ok (Instruction.Call label, remaining)
    | Token.LineFeed :: rest2 =>
      match parse_label rest2 with
      | .error e => .error e
      | .ok (label, remaining) => .ok (Instruction.Jump label, remaining)
  | Token.Tab :: rest =>
    match rest with
    | [] => .error .panicOutOfBounds
    | Token.Space :: rest2 =>
      match parse_label rest2 with
      | .error e => .error e
      | .ok (label, remaining) => .ok (Instruction.JumpIfZero label, remaining)
    | Token.Tab :: rest2 =>
      match parse_label rest2 with
      | .error e => .error e
      | .ok (label, remaining) => .ok (Instruction.JumpIfNegative label, remaining)
    | Token.LineFeed :: rest2 => .ok (Instruction.EndSubroutine, rest2)
  | Token.LineFeed :: rest =>
    match rest with
    | [] => .error .panicOutOfBounds
    | Token.LineFeed :: rest2 => .ok (Instruction.EndProgram, rest2)
    | Token.Space :: _ => .error (.decodeError "invalid flow control instruction")
    | Token.Tab :: _ => .error (.decodeError "invalid flow control instruction")

/-- Model of `Parser::parse_input_output` (entered after a `Tab LineFeed` prefix). -/
def parse_input_output (tokens : List Token) : Except ParseError (Instruction × List Token) :=
  match tokens with
  | [] => .error .panicOutOfBounds
  | Token.Space :: rest =>
    match rest with
    | [] => .error .panicOutOfBounds
    | Token.Space :: rest2 => .ok (Instruction.OutputChar, rest2)
    | Token.Tab :: rest2 => .ok (Instruction.OutputNumber, rest2)
    | Token.LineFeed :: _ => .error (.decodeError "invalid i/o instruction")
  | Token.Tab :: rest =>
    match rest with
    | [] => .error .panicOutOfBounds
    | Token.Space :: rest2 => .ok (Instruction.ReadChar, rest2)
    | Token.Tab :: rest2 => .ok (Instruction.ReadNumber, rest2)
    | Token.LineFeed :: _ => .error (.decodeError "invalid i/o instruction")
  | Token.LineFeed :: _ => .error (.decodeError "invalid i/o instruction")

theorem parse_number_loop_length :
    ∀ {ts : List Token} {acc v : Int} {r : List Token},
      parse_number_loop acc ts = .ok (v, r) → r.length ≤ ts.length := by
  intro ts
  induction ts with
  | nil => intro acc v r h; simp [parse_number_loop] at h
  | cons t rest ih =>
    intro acc v r h
    cases t with
    | Space =>
      rw [parse_number_loop] at h
      exact Nat.le_succ_of_le (ih h)
    | Tab =>
      rw [parse_number_loop] at h
      exact Nat.le_succ_of_le (ih h)
    | LineFeed =>
      rw [parse_number_loop] at h
      simp at h
      obtain ⟨-, hr⟩ := h
      subst hr
      simp

theorem parse_number_length {ts : List Token} {v : Int} {r : List Token}
    (h : parse_number ts = .ok (v, r)) : r.length ≤ ts.length := by
  match ts with
  | [] => simp [parse_number] at h
  | Token.Space :: rest =>
    rw [parse_number] at h
    cases hn : parse_number_loop 0 rest with
    | error e => rw [hn] at h; simp at h
    | ok p =>
      obtain ⟨v0, r0⟩ := p
      rw [hn] at h
      simp at h
      obtain ⟨-, hr⟩ := h
      subst hr
      have := parse_number_loop_length hn
      simp
      omega
  | Token.Tab :: rest =>
    rw [parse_number] at h
    cases hn : parse_number_loop 0 rest with
    | error e => rw [hn] at h; simp at h
    | ok p =>
      obtain ⟨v0, r0⟩ := p
      rw [hn] at h
      simp at h
      obtain ⟨-, hr⟩ := h
      subst hr
      have := parse_number_loop_length hn
      simp
      omega
  | Token.LineFeed :: rest => simp [parse_number] at h

theorem parse_label_loop_length :
    ∀ {ts : List Token} {s lab : String} {r : List Token},
      parse_label_loop s ts = .ok (lab, r) → r.length ≤ ts.length := by
  intro ts
  induction ts with
  | nil => intro s lab r h; simp [parse_label_loop] at h
  | cons t rest ih =>
    intro s lab r h
    cases t with
    | Space =>
      rw [parse_label_loop] at h
      exact Nat.le_succ_of_le (ih h)
    | Tab =>
      rw [parse_label_loop] at h
      exact Nat.le_succ_of_le (ih h)
    | LineFeed =>
      rw [parse_label_loop] at h
      simp at h
      obtain ⟨-, hr⟩ := h
      subst hr
      simp

theorem parse_label_length {ts : List Token} {lab : String} {r : List Token}
    (h : parse_label ts = .ok (lab, r)) : r.length ≤ ts.length :=
  parse_label_loop_length h

theorem parse_stack_manipulation_length {ts : List Token} {i : Instruction} {r : List Token}
    (h : parse_stack_manipulation ts = .ok (i, r)) : r.length ≤ ts.length := by
  match ts with
  | [] => simp [parse_stack_manipulation] at h
  | Token.Space :: rest =>
    rw [parse_stack_manipulation] at h
    cases hn : parse_number rest with
    | error e => rw [hn] at h; simp at h
    | ok p =>
      obtain ⟨v0, r0⟩ := p
      rw [hn] at h
      simp at h
      obtain ⟨-, hr⟩ := h
      subst hr
      have := parse_number_length hn
      simp only [List.length_cons]
      omega
  | Token.Tab :: [] => simp [parse_stack_manipulation] at h
  | Token.Tab :: Token.Space :: rest2 =>
    rw [parse_stack_manipulation] at h
    cases hn : parse_number rest2 with
    | error e => rw [hn] at h; simp at h
    | ok p =>
      obtain ⟨v0, r0⟩ := p
      rw [hn] at h
      simp at h
      obtain ⟨-, hr⟩ := h
      subst hr
      have := parse_number_length hn
      simp only [List.length_cons]
      omega
  | Token.Tab :: Token.LineFeed :: rest2 =>
    rw [parse_stack_manipulation] at h
    cases hn : parse_number rest2 with
    | error e => rw [hn] at h; simp at h
    | ok p =>
      obtain ⟨v0, r0⟩ := p
      rw [hn] at h
      simp at h
      obtain ⟨-, hr⟩ := h
      subst hr
      have := parse_number_length hn
      simp only [List.length_cons]
      omega
  | Token.Tab :: Token.Tab :: _ => simp [parse_stack_manipulation] at h
  | Token.LineFeed :: [] => simp [parse_stack_manipulation] at h
  | Token.LineFeed :: Token.Tab :: rest2 =>
    simp [parse_stack_manipulation] at h
    obtain ⟨-, hr⟩ := h
    subst hr
    simp only [List.length_cons]
    omega
  | Token.LineFeed :: Token.LineFeed :: rest2 =>
    simp [parse_stack_manipulation] at h
    obtain ⟨-, hr⟩ := h
    subst hr
    simp only [List.length_cons]
    omega
  | Token.LineFeed :: Token.Space :: rest2 =>
    simp [parse_stack_manipulation] at h
    obtain ⟨-, hr⟩ := h
    subst hr
    simp only [List.length_cons]
    omega

theorem parse_arithmetic_length {ts : List Token} {i : Instruction} {r : List Token}
    (h : parse_arithmetic ts = .ok (i, r)) : r.length ≤ ts.length := by
  match ts with
  | [] => simp [parse_arithmetic] at h
  | Token.Space :: [] => simp [parse_arithmetic] at h
  | Token.Space :: _ :: rest2 =>
    rename_i t2
    cases t2 <;>
      · simp [parse_arithmetic] at h
        obtain ⟨-, hr⟩ := h
        subst hr
        simp only [List.length_cons]
        omega
  | Token.Tab :: [] => simp [parse_arithmetic] at h
  | Token.Tab :: Token.Space :: rest2 =>
    simp [parse_arithmetic] at h
    obtain ⟨-, hr⟩ := h
    subst hr
    simp only [List.length_cons]
    omega
  | Token.Tab :: Token.Tab :: rest2 =>
    simp [parse_arithmetic] at h
    obtain ⟨-, hr⟩ := h
    subst hr
    simp only [List.length_cons]
    omega
  | Token.Tab :: Token.LineFeed :: _ => simp [parse_arithmetic] at h
  | Token.LineFeed :: _ => simp [parse_arithmetic] at h

theorem parse_heap_access_length {ts : List Token} {i : Instruction} {r : List Token}
    (h : parse_heap_access ts = .ok (i, r)) : r.length ≤ ts.length := by
  match ts with
  | [] => simp [parse_heap_access] at h
  | Token.Space :: rest =>
    simp [parse_heap_access] at h
    obtain ⟨-, hr⟩ := h
    subst hr
    simp only [List.length_cons]
    omega
  | Token.Tab :: rest =>
    simp [parse_heap_access] at h
    obtain ⟨-, hr⟩ := h
    subst hr
    simp only [List.length_cons]
    omega
  | Token.LineFeed :: _ => simp [parse_heap_access] at h

theorem parse_flow_control_length {ts : List Token} {i : Instruction} {r : List Token}
    (h : parse_flow_control ts = .ok (i, r)) : r.length ≤ ts.length := by
  match ts with
  | [] => simp [parse_flow_control] at h
  | Token.Space :: [] => simp [parse_flow_control] at h
  | Token.Space :: _ :: rest2 =>
    rename_i t2
    cases t2 <;>
      · rw [parse_flow_control] at h
        cases hn : parse_label rest2 with
        | error e => rw [hn] at h; simp at h
        | ok p =>
          obtain ⟨lab, r0⟩ := p
          rw [hn] at h
          simp at h
          obtain ⟨-, hr⟩ := h
          subst hr
          have := parse_label_length hn
          simp only [List.length_cons]
          omega
  | Token.Tab :: [] => simp [parse_flow_control] at h
  | Token.Tab :: Token.Space :: rest2 =>
    rw [parse_flow_control] at h
    cases hn : parse_label rest2 with
    | error e => rw [hn] at h; simp at h
    | ok p =>
      obtain ⟨lab, r0⟩ := p
      rw [hn] at h
      simp at h
      obtain ⟨-, hr⟩ := h
      subst hr
      have := parse_label_length hn
      simp only [List.length_cons]
      omega
  | Token.Tab :: Token.Tab :: rest2 =>
    rw [parse_flow_control] at h
    cases hn : parse_label rest2 with
    | error e => rw [hn] at h; simp at h
    | ok p =>
      obtain ⟨lab, r0⟩ := p
      rw [hn] at h
      simp at h
      obtain ⟨-, hr⟩ := h
      subst hr
      have := parse_label_length hn
      simp only [List.length_cons]
      omega
  | Token.Tab :: Token.LineFeed :: rest2 =>
    simp [parse_flow_control] at h
    obtain ⟨-, hr⟩ := h
    subst hr
    simp only [List.length_cons]
    omega
  | Token.LineFeed :: [] => simp [parse_flow_control] at h
  | Token.LineFeed :: Token.LineFeed :: rest2 =>
    simp [parse_flow_control] at h
    obtain ⟨-, hr⟩ := h
    subst hr
    simp only [List.length_cons]
    omega
  | Token.LineFeed :: Token.Space :: _ => simp [parse_flow_control] at h
  | Token.LineFeed :: Token.Tab :: _ => simp [parse_flow_control] at h

theorem parse_input_output_length {ts : List Token} {i : Instruction} {r : List Token}
    (h : parse_input_output ts = .ok (i, r)) : r.length ≤ ts.length := by
  match ts with
  | [] => simp [parse_input_output] at h
  | Token.Space :: [] => simp [parse_input_output] at h
  | Token.Space :: Token.Space :: rest2 =>
    simp [parse_input_output] at h
    obtain ⟨-, hr⟩ := h
    subst hr
    simp only [List.length_cons]
    omega
  | Token.Space :: Token.Tab :: rest2 =>
    simp [parse_input_output] at h
    obtain ⟨-, hr⟩ := h
    subst hr
    simp only [List.length_cons]
    omega
  | Token.Space :: Token.LineFeed :: _ => simp [parse_input_output] at h
  | Token.Tab :: [] => simp [parse_input_output] at h
  | Token.Tab :: Token.Space :: rest2 =>
    simp [parse_input_output] at h
    obtain ⟨-, hr⟩ := h
    subst hr
    simp only [List.length_cons]
    omega
  | Token.Tab :: Token.Tab :: rest2 =>
    simp [parse_input_output] at h
    obtain ⟨-, hr⟩ := h
    subst hr
    simp only [List.length_cons]
    omega
  | Token.Tab :: Token.LineFeed :: _ => simp [parse_input_output] at h
  | Token.LineFeed :: _ => simp [parse_input_output] at h

/-- Model of `Parser::parse`: the decode loop.  Each iteration consumes the leading
token (`advance`) and dispatches on it — `Space` to stack manipulation,
`Tab` to a second token choosing arithmetic / heap access / input-output,
`LineFeed` to flow control — appending the decoded instruction to the
output.  Decoding stops normally when the tokens are exhausted at an
instruction boundary; a `bail!` decode error or an `advance` panic aborts
it. -/
def parse (tokens : List Token) : Except ParseError (List Instruction) :=
  match tokens with
  | [] => .ok []
  | Token.Space :: rest =>
    match h : parse_stack_manipulation rest with
    | .error e => .error e
    | .ok (instruction, remaining) =>
      match parse remaining with
      | .error e => .error e
      | .ok instructions => .ok (instruction :: instructions)
  | Token.Tab :: [] => .error .panicOutOfBounds
  | Token.Tab :: Token.Space :: rest =>
    match h : parse_arithmetic rest with
    | .error e => .error e
    | .ok (instruction, remaining) =>
      match parse remaining with
      | .error e => .error e
      | .ok instructions => .ok (instruction :: instructions)
  | Token.Tab :: Token.Tab :: rest =>
    match h : parse_heap_access rest with
    | .error e => .error e
    | .ok (instruction, remaining) =>
      match parse remaining with
      | .error e => .error e
      | .ok instructions => .ok (instruction :: instructions)
  | Token.Tab :: Token.LineFeed :: rest =>
    match h : parse_input_output rest with
    | .error e => .error e
    | .ok (instruction, remaining) =>
      match parse remaining with
      | .error e => .error e
      | .ok instructions => .ok (instruction :: instructions)
  | Token.LineFeed :: rest =>
    match h : parse_flow_control rest with
    | .error e => .error e
    | .ok (instruction, remaining) =>
      match parse remaining with
      | .error e => .error e
      | .ok instructions => .ok (instruction :: instructions)
termination_by tokens.length
decreasing_by
  · have := parse_stack_manipulation_length h
    simp only [List.length_cons]
    omega
  · have := parse_arithmetic_length h
    simp only [List.length_cons]
    omega
  · have := parse_heap_access_length h
    simp only [List.length_cons]
    omega
  · have := parse_input_output_length h
    simp only [List.length_cons]
    omega
  · have := parse_flow_control_length h
    simp only [List.length_cons]
    omega

/-- Runtime failure modes of the virtual machine (`interpreter.rs`).
Constructors tagged "panic" model Rust panics (which abort the process);
the rest model the `anyhow` error results returned by `VM::execute`. -/
inductive VMError where
  | noMoreInstructions
  | emptyStackPop
  | emptyStackPeek
  | panicIndexOutOfRange
  | panicUnimplemented
  | divideByZero (dividend : Int)
  | panicRemainderByZero
  | heapOverflow
  | invalidAddress
  | labelNotFound
  | invalidConversion
  | invalidCharacter
  | ioError
deriving DecidableEq, Repr

/-- The machine state (`struct VM`).  The data stack is a `Vec<i32>` whose
end is its top; here the head of `stack` is the top.  The fields after
`heap` model the host environment used by the I/O instructions: pending
console characters, pending (already parsed) numeric input lines, and the
accumulated standard output. -/
structure VM where
  instruction_ptr : Nat
  stack : List Int
  labels : List (String × Nat)
  heap : List Int
  stdin_chars : List Char
  stdin_nums : List Int
  output : String
deriving DecidableEq, Repr

/-- Model of `VM::with_heap_size`: zero-initialized heap of the given size. -/
def VM.with_heap_size (heap_size : Nat) : VM :=
  { instruction_ptr := 0
    stack := []
    labels := []
    heap := List.replicate heap_size 0
    stdin_chars := []
    stdin_nums := []
    output := "" }

/-- Model of `VM::new`: default heap of 1024 cells. -/
def VM.new : VM :=
  VM.with_heap_size 1024

/-- Insert into an association list, overwriting an existing binding
(`HashMap::insert` semantics for the label table). -/
def assocUpdate : List (String × Nat) → String → Nat → List (String × Nat)
  | [], key, val => [(key, val)]
  | (k, v) :: rest, key, val =>
    if k = key then (key, val) :: rest else (k, v) :: assocUpdate rest key val

/-- Label-table lookup (`self.labels.get(label)`). -/
def lookupLabel (labels : List (String × Nat)) (label : String) : Option Nat :=
  List.lookup label labels

/-- The label-table scan at the top of `VM::execute`: every `MarkLocation`
records its own instruction index, later duplicates overwriting earlier
ones. -/
def buildLabels (instructions : List Instruction) (init : List (String × Nat)) :
    List (String × Nat) :=
  instructions.enum.foldl
    (fun m p =>
      match p.2 with
      | Instruction.MarkLocation label => assocUpdate m label p.1
      | _ => m)
    init

/-- Model of `i32::checked_div` on in-range arguments: `none` when the divisor is
zero or when the division overflows (`-2^31 / -1`); otherwise the quotient
truncated toward zero. -/
def checkedDiv (l r : Int) : Option Int :=
  if r = 0 ∨ (l = -(2 ^ 31) ∧ r = -1) then none else some (Int.tdiv l r)

/-- Model of `VM::store_heap`: `usize::try_from` rejects a negative address, the
bounds check rejects one at or past the heap length, otherwise the cell is
written. -/
def store_heap (vm : VM) (address value : Int) : Except VMError VM :=
  if address < 0 then .error .invalidAddress
  else if vm.heap.length ≤ address.toNat then .error .heapOverflow
  else .ok { vm with heap := vm.heap.set address.toNat value }

/-- Model of `VM::get_heap`: same address checks, then the stored value. -/
def get_heap (vm : VM) (address : Int) : Except VMError Int :=
  if address < 0 then .error .invalidAddress
  else if vm.heap.length ≤ address.toNat then .error .heapOverflow
  else .ok (vm.heap.getD address.toNat 0)

/-- Model of `VM::jump`: look the label up in the prebuilt table and point the
instruction pointer at it. -/
def jump (vm : VM) (label : String) : Except VMError VM :=
  match lookupLabel vm.labels label with
  | none => .error .labelNotFound
  | some target => .ok { vm with instruction_ptr := target }

/-- Outcome of one iteration of the fetch-execute loop.  Errors and the
`EndProgram` break carry the machine state as of that moment, matching the
Rust `VM` whose (public) stack and heap survive an `Err` return. -/
inductive StepResult where
  | ok (vm : VM)
  | err (e : VMError) (vm : VM)
  | halt (vm : VM)
deriving DecidableEq, Repr

/-- The state carried by a step outcome. -/
def StepResult.vmOf : StepResult → VM
  | .ok vm => vm
  | .err _ vm => vm
  | .halt vm => vm

/-- The `self.instruction_ptr += 1` at the bottom of the loop, applied
after every instruction that neither errors nor breaks (for jumps it is
applied to the already-redirected pointer). -/
def postIncr (vm : VM) : StepResult :=
  .ok { vm with instruction_ptr := vm.instruction_ptr + 1 }

/-- One iteration of the loop in `VM::execute`: fetch the instruction at
`instruction_ptr` (error "no more instructions" when out of range), execute
it, then post-increment the pointer.  Pops happen one at a time, so an
error raised after a successful pop leaves that pop visible in the carried
state. -/
def step (instructions : List Instruction) (vm : VM) : StepResult :=
  match instructions[vm.instruction_ptr]? with
  | none => .err .noMoreInstructions vm
  | some instruction =>
    match instruction with
    | Instruction.Push number => postIncr { vm with stack := number :: vm.stack }
    | Instruction.Duplicate =>
      match vm.stack with
      | [] => .err .emptyStackPeek vm
      | element :: _ => postIncr { vm with stack := element :: vm.stack }
    | Instruction.Copy _ => .err .panicUnimplemented vm
    | Instruction.Swap =>
      -- `self.stack.swap(stack_len - 1, stack_len - 2)` exchanges the two
      -- topmost values and panics (index out of range) with fewer than two.
      match vm.stack with
      | a :: b :: rest => postIncr { vm with stack := b :: a :: rest }
      | _ => .err .panicIndexOutOfRange vm
    | Instruction.Discard =>
      match vm.stack with
      | [] => .err .emptyStackPop vm
      | _ :: rest => postIncr { vm with stack := rest }
    | Instruction.Slide _ => .err .panicUnimplemented vm
    | Instruction.Add =>
      match vm.stack with
      | [] => .err .emptyStackPop vm
      | [_] => .err .emptyStackPop { vm with stack := [] }
      | left :: right :: rest => postIncr { vm with stack := wrap32 (left + right) :: rest }
    | Instruction.Substract =>
      match vm.stack with
      | [] => .err .emptyStackPop vm
      | [_] => .err .emptyStackPop { vm with stack := [] }
      | left :: right :: rest => postIncr { vm with stack := wrap32 (left - right) :: rest }
    | Instruction.Multiply =>
      match vm.stack with
      | [] => .err .emptyStackPop vm
      | [_] => .err .emptyStackPop { vm with stack := [] }
      | left :: right :: rest => postIncr { vm with stack := wrap32 (left * right) :: rest }
    | Instruction.Divide =>
      match vm.stack with
      | [] => .err .emptyStackPop vm
      | [_] => .err .emptyStackPop { vm with stack := [] }
      | left :: right :: rest =>
        match checkedDiv left right with
        | none => .err (.divideByZero left) { vm with stack := rest }
        | some quotient => postIncr { vm with stack := quotient :: rest }
    | Instruction.Modulo =>
      match vm.stack with
      | [] => .err .emptyStackPop vm
      | [_] => .err .emptyStackPop { vm with stack := [] }
      | left :: right :: rest =>
        -- Rust `%` panics on a zero divisor and otherwise truncates.
        if right = 0 then .err .panicRemainderByZero { vm with stack := rest }
        else postIncr { vm with stack := Int.tmod left right :: rest }
    | Instruction.HeapStore =>
      match vm.stack with
      | [] => .err .emptyStackPop vm
      | [_] => .err .emptyStackPop { vm with stack := [] }
      | value :: address :: rest =>
        match store_heap { vm with stack := rest } address value with
        | .error e => .err e { vm with stack := rest }
        | .ok vm2 => postIncr vm2
    | Instruction.HeapRetrieve =>
      match vm.stack with
      | [] => .err .emptyStackPop vm
      | address :: rest =>
        match get_heap { vm with stack := rest } address with
        | .error e => .err e { vm with stack := rest }
        | .ok value => postIncr { vm with stack := value :: rest }
    | Instruction.MarkLocation _ => postIncr vm
    | Instruction.Call label =>
      -- `self.stack.push(i32::try_from(self.instruction_ptr)? + 1)`:
      -- the conversion fails above `i32::MAX` and the `+ 1` wraps at it.
      if 2 ^ 31 ≤ vm.instruction_ptr then .err .invalidConversion vm
      else
        match jump { vm with stack := wrap32 ((vm.instruction_ptr : Int) + 1) :: vm.stack } label with
        | .error e => .err e { vm with stack := wrap32 ((vm.instruction_ptr : Int) + 1) :: vm.stack }
        | .ok vm2 => postIncr vm2
    | Instruction.Jump label =>
      match jump vm label with
      | .error e => .err e vm
      | .ok vm2 => postIncr vm2
    | Instruction.JumpIfZero label =>
      match vm.stack with
      | [] => .err .emptyStackPeek vm
      | top :: _ =>
        if top = 0 then
          match jump vm label with
          | .error e => .err e vm
          | .ok vm2 => postIncr vm2
        else postIncr vm
    | Instruction.JumpIfNegative label =>
      match vm.stack with
      | [] => .err .emptyStackPeek vm
      | top :: _ =>
        if top < 0 then
          match jump vm label with
          | .error e => .err e vm
          | .ok vm2 => postIncr vm2
        else postIncr vm
    | Instruction.EndSubroutine =>
      match vm.stack with
      | [] => .err .emptyStackPop vm
      | addr :: rest =>
        -- `usize::try_from(addr)` fails on a negative return address.
        if addr < 0 then .err .invalidConversion { vm with stack := rest }
        else postIncr { vm with stack := rest, instruction_ptr := addr.toNat }
    | Instruction.EndProgram => .halt vm
    | Instruction.OutputChar =>
      match vm.stack with
      | [] => .err .emptyStackPop vm
      | element :: rest =>
        -- `u32::try_from` rejects negatives, `char::from_u32` rejects
        -- surrogates and values above 0x10FFFF.
        if element < 0 then .err .invalidCharacter { vm with stack := rest }
        else if element.toNat < 0xD800 ∨ (0xE000 ≤ element.toNat ∧ element.toNat ≤ 0x10FFFF) then
          postIncr { vm with stack := rest, output := vm.output.push (Char.ofNat element.toNat) }
        else .err .invalidCharacter { vm with stack := rest }
    | Instruction.OutputNumber =>
      match vm.stack with
      | [] => .err .emptyStackPop vm
      | element :: rest =>
        postIncr { vm with stack := rest, output := vm.output ++ toString element }
    | Instruction.ReadChar =>
      match vm.stdin_chars with
      | [] => .err .ioError vm
      | c :: cs => postIncr { vm with stdin_chars := cs, stack := (c.toNat : Int) :: vm.stack }
    | Instruction.ReadNumber =>
      match vm.stdin_nums with
      | [] => .err .ioError vm
      | n :: ns =>
        -- `str::parse::<i32>` fails on values outside the i32 range.
        if -(2 ^ 31) ≤ n ∧ n < 2 ^ 31 then postIncr { vm with stdin_nums := ns, stack := n :: vm.stack }
        else .err .ioError { vm with stdin_nums := ns }

/-- Outcome of running the fetch-execute loop with a fuel bound:
`ok` is the `break Ok(())` of `EndProgram`, `err` an `anyhow` error or a
panic, `outOfFuel` an execution still running after `fuel` iterations. -/
inductive RunResult where
  | ok (vm : VM)
  | err (e : VMError) (vm : VM)
  | outOfFuel (vm : VM)
deriving DecidableEq, Repr

/-- The state carried by a run outcome. -/
def RunResult.vmOf : RunResult → VM
  | .ok vm => vm
  | .err _ vm => vm
  | .outOfFuel vm => vm

/-- Holds the value `true` exactly when the run failed with the division-by-zero error. -/
def RunResult.isDivByZeroErr : RunResult → Bool
  | .err (.divideByZero _) _ => true
  | _ => false

/-- The fetch-execute loop of `VM::execute`, fuel-bounded. -/
def runLoop : Nat → List Instruction → VM → RunResult
  | 0, _, vm => .outOfFuel vm
  | fuel + 1, instructions, vm =>
    match step instructions vm with
    | .ok vm2 => runLoop fuel instructions vm2
    | .err e vm2 => .err e vm2
    | .halt vm2 => .ok vm2

/-- Model of `VM::execute`: build the label table from every `MarkLocation`, then
run the fetch-execute loop. -/
def execute (fuel : Nat) (instructions : List Instruction) (vm : VM) : RunResult :=
  runLoop fuel instructions { vm with labels := buildLabels instructions vm.labels }

/-- Binary digits of a natural number, most significant first (empty for
zero). -/
def natBits (n : Nat) : List Bool :=
  if h : n = 0 then [] else natBits (n / 2) ++ [decide (n % 2 = 1)]
termination_by n
decreasing_by exact Nat.div_lt_self (Nat.pos_of_ne_zero h) (by omega)

/-- Digit bit to token: 1 is `Tab`, 0 is `Space` (the spec's Blank). -/
def boolTok (b : Bool) : Token :=
  cond b Token.Tab Token.Space

/-- Modelled from the spec: the canonical signed-number literal encoding —
one sign token (Blank/Space = positive, Tab = negative), then the binary
digits of `|n|` (Blank/Space = 0, Tab = 1) most significant first, then the
Break/LineFeed terminator.  (The source only decodes literals; this
encoder exists to state the decode-encode round trip.) -/
def encodeNumber (n : Int) : List Token :=
  (if 0 ≤ n then Token.Space else Token.Tab) ::
    ((natBits n.natAbs).map boolTok ++ [Token.LineFeed])

/-- The exact value of the decoder's shift-and-add digit loop when no
wrap-around occurs. -/
def bitsVal (acc : Int) (bs : List Bool) : Int :=
  bs.foldl (fun a b => 2 * a + cond b 1 0) acc

theorem wrap32_eq_self {x : Int} (h1 : -(2 ^ 31) ≤ x) (h2 : x < 2 ^ 31) :
    wrap32 x = x := by
  unfold wrap32
  omega

/-- Claim C1 (code bug evidence): in the program
`[Call "f", Push 7, EndProgram, MarkLocation "f", EndSubroutine]` the Call
at index 0 pushes return address 1, the subroutine at label `f` executes
`EndSubroutine` with that address on top of the stack, and the run then
*succeeds with an empty stack*: `EndSubroutine` sets the pointer to the
popped address 1 and the loop's post-increment moves it to 2, so the
`Push 7` at index 1 — the instruction immediately following the Call — is
skipped.  Had execution resumed at index 1 as the claim states, the final
stack would have been `[7]`. -/
theorem c1_call_return_skips_following_instruction :
    execute 10
        [Instruction.Call "f", Instruction.Push 7, Instruction.EndProgram,
          Instruction.MarkLocation "f", Instruction.EndSubroutine] VM.new =
      RunResult.ok { VM.new with labels := [("f", 3)], instruction_ptr := 2, stack := [] } ∧
    (execute 10
        [Instruction.Call "f", Instruction.Push 7, Instruction.EndProgram,
          Instruction.MarkLocation "f", Instruction.EndSubroutine] VM.new).vmOf.stack ≠ [7] :=
  ⟨rfl, by decide⟩

/-- Claim C2 (counterexample): running `Push(5), Push(0), Divide` from the
empty stack does *not* fail with a division-by-zero error and does not end
with an empty stack.  The Divide pops `left = 0` (top) and `right = 5`,
pushes `0 / 5 = 0`, and the run then fails with "no more instructions",
the stack holding `[0]`. -/
theorem c2_counterexample :
    execute 10 [Instruction.Push 5, Instruction.Push 0, Instruction.Divide] VM.new =
      RunResult.err VMError.noMoreInstructions
        { VM.new with instruction_ptr := 3, stack := [0] } ∧
    (execute 10 [Instruction.Push 5, Instruction.Push 0, Instruction.Divide] VM.new).isDivByZeroErr
      = false ∧
    (execute 10 [Instruction.Push 5, Instruction.Push 0, Instruction.Divide] VM.new).vmOf.stack
      ≠ [] :=
  ⟨rfl, rfl, by decide⟩

/-- Claim C2 (amended): `Push(5), Push(0), Divide` executes the division as
`0 / 5`, pushing 0 (the run afterwards fails with "no more instructions"
because nothing follows); it is the reversed sequence
`Push(0), Push(5), Divide` that fails with a division-by-zero error, both
operands already popped, so the stack at that failure is empty. -/
theorem c2_divide_zero_needs_reversed_pushes :
    execute 10 [Instruction.Push 5, Instruction.Push 0, Instruction.Divide] VM.new =
      RunResult.err VMError.noMoreInstructions
        { VM.new with instruction_ptr := 3, stack := [0] } ∧
    execute 10 [Instruction.Push 0, Instruction.Push 5, Instruction.Divide] VM.new =
      RunResult.err (VMError.divideByZero 5)
        { VM.new with instruction_ptr := 2, stack := [] } :=
  ⟨rfl, rfl⟩

/-- Claim C3 (counterexample): with stack top `-2^31` and second value
`-1`, Divide fails (raising the division-by-zero error naming the dividend
`-2^31`) even though the second-popped operand `right = -1` is not zero:
`i32::checked_div` also returns `None` on the overflowing division
`-2^31 / -1`, and the code turns every `None` into the
"trying to divide .. by zero" error. -/
theorem c3_counterexample :
    step [Instruction.Divide] { VM.new with stack := [-2147483648, -1] } =
      StepResult.err (VMError.divideByZero (-2147483648)) { VM.new with stack := [] } ∧
    (-1 : Int) ≠ 0 :=
  ⟨rfl, by decide⟩

/-- Claim C3 (amended): executing Divide on a stack `left :: right :: rest`
fails with the division-by-zero error (naming the dividend `left`) if and
only if `right = 0` or the division overflows (`left = -2^31` and
`right = -1`); otherwise it pushes the quotient truncated toward zero. -/
theorem c3_divide_contract (left right : Int) (rest : List Int) (vm : VM)
    (instructions : List Instruction)
    (hfetch : instructions[vm.instruction_ptr]? = some Instruction.Divide)
    (hstack : vm.stack = left :: right :: rest) :
    (right = 0 ∨ (left = -(2 ^ 31) ∧ right = -1) →
      step instructions vm =
        StepResult.err (VMError.divideByZero left) { vm with stack := rest }) ∧
    (¬(right = 0 ∨ (left = -(2 ^ 31) ∧ right = -1)) →
      step instructions vm =
        StepResult.ok { vm with stack := Int.tdiv left right :: rest,
                                instruction_ptr := vm.instruction_ptr + 1 }) := by
  constructor
  · intro hc
    simp only [step, hfetch, hstack, checkedDiv, if_pos hc]
  · intro hc
    simp only [step, hfetch, hstack, checkedDiv, if_neg hc, postIncr]

/-- Witness for C3's amended theorem at `left = 7`, `right = 2`. -/
theorem c3_divide_contract_witness :
    ([Instruction.Divide][(0 : Nat)]? = some Instruction.Divide) ∧
    step [Instruction.Divide] { VM.new with stack := [7, 2] } =
      StepResult.ok { VM.new with stack := [Int.tdiv 7 2], instruction_ptr := 1 } :=
  ⟨rfl, (c3_divide_contract 7 2 [] { VM.new with stack := [7, 2] }
      [Instruction.Divide] rfl rfl).2 (by decide)⟩

/-- Claim C5 (counterexample): at `a = -1`, `b = 2^31 - 1` the value pushed
by Subtract is the wrapped `-2^31`, not the mathematical difference
`b - a = 2^31` (which does not fit in an `i32`). -/
theorem c5_counterexample :
    execute 3 [Instruction.Push (-1), Instruction.Push 2147483647, Instruction.Substract]
        VM.new =
      RunResult.outOfFuel { VM.new with instruction_ptr := 3, stack := [-2147483648] } ∧
    (-2147483648 : Int) ≠ 2147483647 - (-1) :=
  ⟨rfl, by decide⟩

/-- Claim C5 (amended): executing Subtract after `Push(a), Push(b)` pops
`left = b` first (the value pushed last) and `right = a` second, and pushes
the two's-complement 32-bit result of `b - a`, which equals `b - a`
whenever that difference fits in an `i32`; in particular
`Push(3), Push(4), Add` from the empty stack leaves the one-element stack
`[7]`. -/
theorem c5_substract_operand_order (a b : Int) (rest : List Int) (vm : VM)
    (instructions : List Instruction)
    (hfetch : instructions[vm.instruction_ptr]? = some Instruction.Substract)
    (hstack : vm.stack = b :: a :: rest) :
    step instructions vm =
      StepResult.ok { vm with stack := wrap32 (b - a) :: rest,
                              instruction_ptr := vm.instruction_ptr + 1 } ∧
    (-(2 ^ 31) ≤ b - a → b - a < 2 ^ 31 → wrap32 (b - a) = b - a) ∧
    execute 3 [Instruction.Push 3, Instruction.Push 4, Instruction.Add] VM.new =
      RunResult.outOfFuel { VM.new with instruction_ptr := 3, stack := [7] } := by
  refine ⟨?_, fun h1 h2 => wrap32_eq_self h1 h2, rfl⟩
  simp only [step, hfetch, hstack, postIncr]

/-- Witness for C5's amended theorem at `a = 3`, `b = 4`. -/
theorem c5_substract_operand_order_witness :
    ({ VM.new with stack := [4, 3] } : VM).stack = 4 :: 3 :: [] ∧
    step [Instruction.Substract] { VM.new with stack := [4, 3] } =
      StepResult.ok { VM.new with stack := [wrap32 (4 - 3)], instruction_ptr := 1 } :=
  ⟨rfl, (c5_substract_operand_order 3 4 [] { VM.new with stack := [4, 3] }
      [Instruction.Substract] rfl rfl).1⟩

/-- Claim C6: HeapStore with a second-popped address that is negative or at
least the heap length fails — with the invalid-address error when negative
(`usize::try_from`), the heap-overflow error otherwise — and leaves every
heap cell unchanged (both operands are popped before the failure). -/
theorem c6_heap_store_out_of_range (vm : VM) (instructions : List Instruction)
    (value address : Int) (rest : List Int)
    (hfetch : instructions[vm.instruction_ptr]? = some Instruction.HeapStore)
    (hstack : vm.stack = value :: address :: rest)
    (haddr : address < 0 ∨ (vm.heap.length : Int) ≤ address) :
    step instructions vm =
      StepResult.err (if address < 0 then VMError.invalidAddress else VMError.heapOverflow)
        { vm with stack := rest } ∧
    (step instructions vm).vmOf.heap = vm.heap := by
  have hmain : step instructions vm =
      StepResult.err (if address < 0 then VMError.invalidAddress else VMError.heapOverflow)
        { vm with stack := rest } := by
    rcases haddr with h | h
    · simp only [step, hfetch, hstack, store_heap, if_pos h]
    · have h0 : ¬ address < 0 := by omega
      have h2 : vm.heap.length ≤ address.toNat := by omega
      simp only [step, hfetch, hstack, store_heap, if_neg h0, if_pos h2]
  refine ⟨hmain, ?_⟩
  rw [hmain]
  rfl

/-- Witness for C6 at heap size 4 and address 5. -/
theorem c6_heap_store_out_of_range_witness :
    ((({ VM.with_heap_size 4 with stack := [9, 5] } : VM).heap.length : Int) ≤ 5) ∧
    step [Instruction.HeapStore] { VM.with_heap_size 4 with stack := [9, 5] } =
      StepResult.err
        (if (5 : Int) < 0 then VMError.invalidAddress else VMError.heapOverflow)
        { VM.with_heap_size 4 with stack := [] } ∧
    (step [Instruction.HeapStore] { VM.with_heap_size 4 with stack := [9, 5] }).vmOf.heap =
      ({ VM.with_heap_size 4 with stack := [9, 5] } : VM).heap := by
  have h := c6_heap_store_out_of_range { VM.with_heap_size 4 with stack := [9, 5] }
    [Instruction.HeapStore] 9 5 [] rfl rfl (Or.inr (by decide))
  exact ⟨by decide, h.1, h.2⟩

/-- Claim C7: Swap on a stack with fewer than two values fails with the
index-out-of-range panic of `Vec::swap`; with at least two values it
exchanges the two topmost values and leaves the rest of the stack, the
heap, and the post-increment of the instruction pointer unchanged. -/
theorem c7_swap_contract (vm : VM) (instructions : List Instruction)
    (hfetch : instructions[vm.instruction_ptr]? = some Instruction.Swap) :
    (vm.stack.length < 2 →
      step instructions vm = StepResult.err VMError.panicIndexOutOfRange vm) ∧
    (∀ a b rest, vm.stack = a :: b :: rest →
      step instructions vm =
        StepResult.ok { vm with stack := b :: a :: rest,
                                instruction_ptr := vm.instruction_ptr + 1 }) := by
  constructor
  · intro hlen
    rcases hstack : vm.stack with - | ⟨x, - | ⟨y, r⟩⟩
    · simp only [step, hfetch, hstack]
    · simp only [step, hfetch, hstack]
    · rw [hstack] at hlen
      simp only [List.length_cons] at hlen
      omega
  · intro a b rest hstack
    simp only [step, hfetch, hstack, postIncr]

/-- Witness for C7: both branches at concrete states. -/
theorem c7_swap_contract_witness :
    (({ VM.new with stack := [8] } : VM).stack.length < 2 ∧
      step [Instruction.Swap] { VM.new with stack := [8] } =
        StepResult.err VMError.panicIndexOutOfRange { VM.new with stack := [8] }) ∧
    step [Instruction.Swap] { VM.new with stack := [1, 2, 3] } =
      StepResult.ok { VM.new with stack := [2, 1, 3], instruction_ptr := 1 } :=
  ⟨⟨by decide,
      (c7_swap_contract { VM.new with stack := [8] } [Instruction.Swap] rfl).1 (by decide)⟩,
    (c7_swap_contract { VM.new with stack := [1, 2, 3] } [Instruction.Swap] rfl).2
      1 2 [3] rfl⟩

/-- Claim C8: whenever the instruction pointer is at or past the end of the
instruction sequence, the fetch fails with the "no more instructions"
error — a single step errs, and the whole loop stops with that error
immediately (for any remaining fuel), so execution neither continues nor
succeeds in that situation. -/
theorem c8_run_off_end_fails (instructions : List Instruction) (vm : VM)
    (h : instructions.length ≤ vm.instruction_ptr) :
    step instructions vm = StepResult.err VMError.noMoreInstructions vm ∧
    ∀ fuel : Nat, runLoop (fuel + 1) instructions vm =
      RunResult.err VMError.noMoreInstructions vm := by
  have hfetch : instructions[vm.instruction_ptr]? = none := by
    exact List.getElem?_eq_none h
  have hstep : step instructions vm = StepResult.err VMError.noMoreInstructions vm := by
    simp only [step, hfetch]
  exact ⟨hstep, fun fuel => by simp only [runLoop, hstep]⟩

/-- Witness for C8: a one-instruction program with the pointer already past
the end. -/
theorem c8_run_off_end_fails_witness :
    ([Instruction.Push 1].length ≤ ({ VM.new with instruction_ptr := 5 } : VM).instruction_ptr) ∧
    runLoop 3 [Instruction.Push 1] { VM.new with instruction_ptr := 5 } =
      RunResult.err VMError.noMoreInstructions { VM.new with instruction_ptr := 5 } :=
  ⟨by decide,
    (c8_run_off_end_fails [Instruction.Push 1] { VM.new with instruction_ptr := 5 }
      (by decide)).2 2⟩

/-- Claim C10: a Call whose label is absent from the label table fails with
the label-not-found error, but the return address `instruction_ptr + 1` has
already been pushed, so the state at failure has a stack exactly one
element deeper than before the instruction. -/
theorem c10_call_missing_label (vm : VM) (instructions : List Instruction) (label : String)
    (hfetch : instructions[vm.instruction_ptr]? = some (Instruction.Call label))
    (hlabel : lookupLabel vm.labels label = none)
    (hip : vm.instruction_ptr + 1 < 2 ^ 31) :
    step instructions vm =
      StepResult.err VMError.labelNotFound
        { vm with stack := ((vm.instruction_ptr : Int) + 1) :: vm.stack } ∧
    (step instructions vm).vmOf.stack.length = vm.stack.length + 1 := by
  have hlt : ¬ (2 ^ 31 ≤ vm.instruction_ptr) := by omega
  have hwrap : wrap32 ((vm.instruction_ptr : Int) + 1) = (vm.instruction_ptr : Int) + 1 := by
    apply wrap32_eq_self <;> omega
  have hmain : step instructions vm =
      StepResult.err VMError.labelNotFound
        { vm with stack := ((vm.instruction_ptr : Int) + 1) :: vm.stack } := by
    simp only [step, hfetch, if_neg hlt, hwrap, jump, hlabel]
  refine ⟨hmain, ?_⟩
  rw [hmain]
  simp [StepResult.vmOf]

/-- Witness for C10 at a Call to the unbound label `"x"`. -/
theorem c10_call_missing_label_witness :
    lookupLabel (VM.new).labels "x" = none ∧
    step [Instruction.Call "x"] VM.new =
      StepResult.err VMError.labelNotFound { VM.new with stack := [1] } ∧
    (step [Instruction.Call "x"] VM.new).vmOf.stack.length = (VM.new).stack.length + 1 := by
  have h := c10_call_missing_label VM.new [Instruction.Call "x"] "x" rfl rfl (by decide)
  refine ⟨rfl, ?_, h.2⟩
  have h1 := h.1
  simpa using h1

/-- Claim C4 (counterexample): the one-token stream `[Tab]` ends in the
middle of an instruction (after the `Tab` family prefix); decoding aborts
with the out-of-bounds panic of `Parser::advance`, which is not one of the
decoder's `bail!` decode errors — no "premature end of input" decode error
exists in the code. -/
theorem c4_counterexample :
    parse [Token.Tab] = Except.error ParseError.panicOutOfBounds ∧
    ParseError.isDecodeErr ParseError.panicOutOfBounds = false := by
  constructor
  · rw [parse]
  · rfl

theorem parse_number_loop_prefix :
    ∀ (ts : List Token) (acc : Int) (suffix : List Token) (v : Int) (rem : List Token),
      parse_number_loop acc (ts ++ suffix) = .ok (v, rem) →
      parse_number_loop acc ts = .error .panicOutOfBounds ∨
      ∃ rem0, parse_number_loop acc ts = .ok (v, rem0) ∧ rem = rem0 ++ suffix := by
  intro ts
  induction ts with
  | nil => intro acc suffix v rem h; exact Or.inl rfl
  | cons t rest ih =>
    intro acc suffix v rem h
    cases t with
    | Space =>
      rw [List.cons_append, parse_number_loop] at h
      rw [parse_number_loop]
      exact ih _ _ _ _ h
    | Tab =>
      rw [List.cons_append, parse_number_loop] at h
      rw [parse_number_loop]
      exact ih _ _ _ _ h
    | LineFeed =>
      rw [List.cons_append, parse_number_loop] at h
      simp at h
      obtain ⟨hv, hr⟩ := h
      subst hv
      subst hr
      exact Or.inr ⟨rest, rfl, rfl⟩

theorem parse_number_prefix (ts suffix : List Token) (v : Int) (rem : List Token)
    (h : parse_number (ts ++ suffix) = .ok (v, rem)) :
    parse_number ts = .error .panicOutOfBounds ∨
    ∃ rem0, parse_number ts = .ok (v, rem0) ∧ rem = rem0 ++ suffix := by
  match ts with
  | [] => exact Or.inl rfl
  | Token.Space :: rest =>
    rw [List.cons_append, parse_number] at h
    rw [parse_number]
    cases hn : parse_number_loop 0 (rest ++ suffix) with
    | error e => rw [hn] at h; simp at h
    | ok p =>
      obtain ⟨v0, r0⟩ := p
      rw [hn] at h
      simp at h
      obtain ⟨hv, hr⟩ := h
      rcases parse_number_loop_prefix rest 0 suffix v0 r0 hn with hp | ⟨rem0, hok, hr0⟩
      · rw [hp]
        exact Or.inl rfl
      · rw [hok]
        exact Or.inr ⟨rem0, by simp [hv], by rw [← hr, hr0]⟩
  | Token.Tab :: rest =>
    rw [List.cons_append, parse_number] at h
    rw [parse_number]
    cases hn : parse_number_loop 0 (rest ++ suffix) with
    | error e => rw [hn] at h; simp at h
    | ok p =>
      obtain ⟨v0, r0⟩ := p
      rw [hn] at h
      simp at h
      obtain ⟨hv, hr⟩ := h
      rcases parse_number_loop_prefix rest 0 suffix v0 r0 hn with hp | ⟨rem0, hok, hr0⟩
      · rw [hp]
        exact Or.inl rfl
      · rw [hok]
        exact Or.inr ⟨rem0, by simp [hv], by rw [← hr, hr0]⟩
  | Token.LineFeed :: rest =>
    rw [List.cons_append, parse_number] at h
    simp at h

theorem parse_label_loop_prefix :
    ∀ (ts : List Token) (s : String) (suffix : List Token) (lab : String) (rem : List Token),
      parse_label_loop s (ts ++ suffix) = .ok (lab, rem) →
      parse_label_loop s ts = .error .panicOutOfBounds ∨
      ∃ rem0, parse_label_loop s ts = .ok (lab, rem0) ∧ rem = rem0 ++ suffix := by
  intro ts
  induction ts with
  | nil => intro s suffix lab rem h; exact Or.inl rfl
  | cons t rest ih =>
    intro s suffix lab rem h
    cases t with
    | Space =>
      rw [List.cons_append, parse_label_loop] at h
      rw [parse_label_loop]
      exact ih _ _ _ _ h
    | Tab =>
      rw [List.cons_append, parse_label_loop] at h
      rw [parse_label_loop]
      exact ih _ _ _ _ h
    | LineFeed =>
      rw [List.cons_append, parse_label_loop] at h
      simp at h
      obtain ⟨hv, hr⟩ := h
      subst hv
      subst hr
      exact Or.inr ⟨rest, rfl, rfl⟩

theorem parse_label_prefix (ts suffix : List Token) (lab : String) (rem : List Token)
    (h : parse_label (ts ++ suffix) = .ok (lab, rem)) :
    parse_label ts = .error .panicOutOfBounds ∨
    ∃ rem0, parse_label ts = .ok (lab, rem0) ∧ rem = rem0 ++ suffix :=
  parse_label_loop_prefix ts "" suffix lab rem h

theorem parse_stack_manipulation_prefix (ts suffix : List Token) (i : Instruction)
    (rem : List Token)
    (h : parse_stack_manipulation (ts ++ suffix) = .ok (i, rem)) :
    parse_stack_manipulation ts = .error .panicOutOfBounds ∨
    ∃ rem0, parse_stack_manipulation ts = .ok (i, rem0) ∧ rem = rem0 ++ suffix := by
  match ts with
  | [] => exact Or.inl rfl
  | Token.Space :: rest =>
    rw [List.cons_append, parse_stack_manipulation] at h
    rw [parse_stack_manipulation]
    cases hn : parse_number (rest ++ suffix) with
    | error e => rw [hn] at h; simp at h
    | ok p =>
      obtain ⟨n0, r0⟩ := p
      rw [hn] at h
      simp at h
      obtain ⟨hi, hr⟩ := h
      rcases parse_number_prefix rest suffix n0 r0 hn with hp | ⟨rem0, hok, hr0⟩
      · rw [hp]
        exact Or.inl rfl
      · rw [hok]
        exact Or.inr ⟨rem0, by simp [hi], by rw [← hr, hr0]⟩
  | Token.Tab :: [] => exact Or.inl rfl
  | Token.Tab :: Token.Space :: rest2 =>
    simp only [List.cons_append] at h
    rw [parse_stack_manipulation] at h
    rw [parse_stack_manipulation]
    cases hn : parse_number (rest2 ++ suffix) with
    | error e => rw [hn] at h; simp at h
    | ok p =>
      obtain ⟨n0, r0⟩ := p
      rw [hn] at h
      simp at h
      obtain ⟨hi, hr⟩ := h
      rcases parse_number_prefix rest2 suffix n0 r0 hn with hp | ⟨rem0, hok, hr0⟩
      · rw [hp]
        exact Or.inl rfl
      · rw [hok]
        exact Or.inr ⟨rem0, by simp [hi], by rw [← hr, hr0]⟩
  | Token.Tab :: Token.LineFeed :: rest2 =>
    simp only [List.cons_append] at h
    rw [parse_stack_manipulation] at h
    rw [parse_stack_manipulation]
    cases hn : parse_number (rest2 ++ suffix) with
    | error e => rw [hn] at h; simp at h
    | ok p =>
      obtain ⟨n0, r0⟩ := p
      rw [hn] at h
      simp at h
      obtain ⟨hi, hr⟩ := h
      rcases parse_number_prefix rest2 suffix n0 r0 hn with hp | ⟨rem0, hok, hr0⟩
      · rw [hp]
        exact Or.inl rfl
      · rw [hok]
        exact Or.inr ⟨rem0, by simp [hi], by rw [← hr, hr0]⟩
  | Token.Tab :: Token.Tab :: rest2 =>
    simp only [List.cons_append] at h
    rw [parse_stack_manipulation] at h
    simp at h
  | Token.LineFeed :: [] => exact Or.inl rfl
  | Token.LineFeed :: Token.Tab :: rest2 =>
    simp only [List.cons_append] at h
    rw [parse_stack_manipulation] at h
    simp at h
    obtain ⟨hi, hr⟩ := h
    rw [parse_stack_manipulation]
    exact Or.inr ⟨rest2, by simp [hi], by rw [← hr]⟩
  | Token.LineFeed :: Token.LineFeed :: rest2 =>
    simp only [List.cons_append] at h
    rw [parse_stack_manipulation] at h
    simp at h
    obtain ⟨hi, hr⟩ := h
    rw [parse_stack_manipulation]
    exact Or.inr ⟨rest2, by simp [hi], by rw [← hr]⟩
  | Token.LineFeed :: Token.Space :: rest2 =>
    simp only [List.cons_append] at h
    rw [parse_stack_manipulation] at h
    simp at h
    obtain ⟨hi, hr⟩ := h
    rw [parse_stack_manipulation]
    exact Or.inr ⟨rest2, by simp [hi], by rw [← hr]⟩

theorem parse_arithmetic_prefix (ts suffix : List Token) (i : Instruction) (rem : List Token)
    (h : parse_arithmetic (ts ++ suffix) = .ok (i, rem)) :
    parse_arithmetic ts = .error .panicOutOfBounds ∨
    ∃ rem0, parse_arithmetic ts = .ok (i, rem0) ∧ rem = rem0 ++ suffix := by
  match ts with
  | [] => exact Or.inl rfl
  | Token.Space :: [] => exact Or.inl rfl
  | Token.Space :: t2 :: rest2 =>
    cases t2 <;>
      · simp only [List.cons_append] at h
        rw [parse_arithmetic] at h
        simp at h
        obtain ⟨hi, hr⟩ := h
        rw [parse_arithmetic]
        exact Or.inr ⟨rest2, by simp [hi], by rw [← hr]⟩
  | Token.Tab :: [] => exact Or.inl rfl
  | Token.Tab :: Token.Space :: rest2 =>
    simp only [List.cons_append] at h
    rw [parse_arithmetic] at h
    simp at h
    obtain ⟨hi, hr⟩ := h
    rw [parse_arithmetic]
    exact Or.inr ⟨rest2, by simp [hi], by rw [← hr]⟩
  | Token.Tab :: Token.Tab :: rest2 =>
    simp only [List.cons_append] at h
    rw [parse_arithmetic] at h
    simp at h
    obtain ⟨hi, hr⟩ := h
    rw [parse_arithmetic]
    exact Or.inr ⟨rest2, by simp [hi], by rw [← hr]⟩
  | Token.Tab :: Token.LineFeed :: rest2 =>
    simp only [List.cons_append] at h
    rw [parse_arithmetic] at h
    simp at h
  | Token.LineFeed :: rest =>
    rw [List.cons_append, parse_arithmetic] at h
    simp at h

theorem parse_heap_access_prefix (ts suffix : List Token) (i : Instruction) (rem : List Token)
    (h : parse_heap_access (ts ++ suffix) = .ok (i, rem)) :
    parse_heap_access ts = .error .panicOutOfBounds ∨
    ∃ rem0, parse_heap_access ts = .ok (i, rem0) ∧ rem = rem0 ++ suffix := by
  match ts with
  | [] => exact Or.inl rfl
  | Token.Space :: rest =>
    rw [List.cons_append, parse_heap_access] at h
    simp at h
    obtain ⟨hi, hr⟩ := h
    rw [parse_heap_access]
    exact Or.inr ⟨rest, by simp [hi], by rw [← hr]⟩
  | Token.Tab :: rest =>
    rw [List.cons_append, parse_heap_access] at h
    simp at h
    obtain ⟨hi, hr⟩ := h
    rw [parse_heap_access]
    exact Or.inr ⟨rest, by simp [hi], by rw [← hr]⟩
  | Token.LineFeed :: rest =>
    rw [List.cons_append, parse_heap_access] at h
    simp at h

theorem parse_flow_control_prefix (ts suffix : List Token) (i : Instruction) (rem : List Token)
    (h : parse_flow_control (ts ++ suffix) = .ok (i, rem)) :
    parse_flow_control ts = .error .panicOutOfBounds ∨
    ∃ rem0, parse_flow_control ts = .ok (i, rem0) ∧ rem = rem0 ++ suffix := by
  match ts with
  | [] => exact Or.inl rfl
  | Token.Space :: [] => exact Or.inl rfl
  | Token.Space :: t2 :: rest2 =>
    cases t2 <;>
      · simp only [List.cons_append] at h
        rw [parse_flow_control] at h
        rw [parse_flow_control]
        cases hn : parse_label (rest2 ++ suffix) with
        | error e => rw [hn] at h; simp at h
        | ok p =>
          obtain ⟨lab0, r0⟩ := p
          rw [hn] at h
          simp at h
          obtain ⟨hi, hr⟩ := h
          rcases parse_label_prefix rest2 suffix lab0 r0 hn with hp | ⟨rem0, hok, hr0⟩
          · rw [hp]
            exact Or.inl rfl
          · rw [hok]
            exact Or.inr ⟨rem0, by simp [hi], by rw [← hr, hr0]⟩
  | Token.Tab :: [] => exact Or.inl rfl
  | Token.Tab :: Token.Space :: rest2 =>
    simp only [List.cons_append] at h
    rw [parse_flow_control] at h
    rw [parse_flow_control]
    cases hn : parse_label (rest2 ++ suffix) with
    | error e => rw [hn] at h; simp at h
    | ok p =>
      obtain ⟨lab0, r0⟩ := p
      rw [hn] at h
      simp at h
      obtain ⟨hi, hr⟩ := h
      rcases parse_label_prefix rest2 suffix lab0 r0 hn with hp | ⟨rem0, hok, hr0⟩
      · rw [hp]
        exact Or.inl rfl
      · rw [hok]
        exact Or.inr ⟨rem0, by simp [hi], by rw [← hr, hr0]⟩
  | Token.Tab :: Token.Tab :: rest2 =>
    simp only [List.cons_append] at h
    rw [parse_flow_control] at h
    rw [parse_flow_control]
    cases hn : parse_label (rest2 ++ suffix) with
    | error e => rw [hn] at h; simp at h
    | ok p =>
      obtain ⟨lab0, r0⟩ := p
      rw [hn] at h
      simp at h
      obtain ⟨hi, hr⟩ := h
      rcases parse_label_prefix rest2 suffix lab0 r0 hn with hp | ⟨rem0, hok, hr0⟩
      · rw [hp]
        exact Or.inl rfl
      · rw [hok]
        exact Or.inr ⟨rem0, by simp [hi], by rw [← hr, hr0]⟩
  | Token.Tab :: Token.LineFeed :: rest2 =>
    simp only [List.cons_append] at h
    rw [parse_flow_control] at h
    simp at h
    obtain ⟨hi, hr⟩ := h
    rw [parse_flow_control]
    exact Or.inr ⟨rest2, by simp [hi], by rw [← hr]⟩
  | Token.LineFeed :: [] => exact Or.inl rfl
  | Token.LineFeed :: Token.LineFeed :: rest2 =>
    simp only [List.cons_append] at h
    rw [parse_flow_control] at h
    simp at h
    obtain ⟨hi, hr⟩ := h
    rw [parse_flow_control]
    exact Or.inr ⟨rest2, by simp [hi], by rw [← hr]⟩
  | Token.LineFeed :: Token.Space :: rest2 =>
    simp only [List.cons_append] at h
    rw [parse_flow_control] at h
    simp at h
  | Token.LineFeed :: Token.Tab :: rest2 =>
    simp only [List.cons_append] at h
    rw [parse_flow_control] at h
    simp at h

theorem parse_input_output_prefix (ts suffix : List Token) (i : Instruction) (rem : List Token)
    (h : parse_input_output (ts ++ suffix) = .ok (i, rem)) :
    parse_input_output ts = .error .panicOutOfBounds ∨
    ∃ rem0, parse_input_output ts = .ok (i, rem0) ∧ rem = rem0 ++ suffix := by
  match ts with
  | [] => exact Or.inl rfl
  | Token.Space :: [] => exact Or.inl rfl
  | Token.Space :: Token.Space :: rest2 =>
    simp only [List.cons_append] at h
    rw [parse_input_output] at h
    simp at h
    obtain ⟨hi, hr⟩ := h
    rw [parse_input_output]
    exact Or.inr ⟨rest2, by simp [hi], by rw [← hr]⟩
  | Token.Space :: Token.Tab :: rest2 =>
    simp only [List.cons_append] at h
    rw [parse_input_output] at h
    simp at h
    obtain ⟨hi, hr⟩ := h
    rw [parse_input_output]
    exact Or.inr ⟨rest2, by simp [hi], by rw [← hr]⟩
  | Token.Space :: Token.LineFeed :: rest2 =>
    simp only [List.cons_append] at h
    rw [parse_input_output] at h
    simp at h
  | Token.Tab :: [] => exact Or.inl rfl
  | Token.Tab :: Token.Space :: rest2 =>
    simp only [List.cons_append] at h
    rw [parse_input_output] at h
    simp at h
    obtain ⟨hi, hr⟩ := h
    rw [parse_input_output]
    exact Or.inr ⟨rest2, by simp [hi], by rw [← hr]⟩
  | Token.Tab :: Token.Tab :: rest2 =>
    simp only [List.cons_append] at h
    rw [parse_input_output] at h
    simp at h
    obtain ⟨hi, hr⟩ := h
    rw [parse_input_output]
    exact Or.inr ⟨rest2, by simp [hi], by rw [← hr]⟩
  | Token.Tab :: Token.LineFeed :: rest2 =>
    simp only [List.cons_append] at h
    rw [parse_input_output] at h
    simp at h
  | Token.LineFeed :: rest =>
    rw [List.cons_append, parse_input_output] at h
    simp at h

theorem parse_nil : parse [] = .ok [] := by
  rw [parse]

theorem parse_cons_space (rest : List Token) :
    parse (Token.Space :: rest) =
      match parse_stack_manipulation rest with
      | .error e => .error e
      | .ok (instruction, remaining) =>
        match parse remaining with
        | .error e => .error e
        | .ok instructions => .ok (instruction :: instructions) := by
  rw [parse]
  split
  next e heq => rw [heq]
  next instruction remaining heq => rw [heq]

theorem parse_cons_tab_space (rest : List Token) :
    parse (Token.Tab :: Token.Space :: rest) =
      match parse_arithmetic rest with
      | .error e => .error e
      | .ok (instruction, remaining) =>
        match parse remaining with
        | .error e => .error e
        | .ok instructions => .ok (instruction :: instructions) := by
  rw [parse]
  split
  next e heq => rw [heq]
  next instruction remaining heq => rw [heq]

theorem parse_cons_tab_tab (rest : List Token) :
    parse (Token.Tab :: Token.Tab :: rest) =
      match parse_heap_access rest with
      | .error e => .error e
      | .ok (instruction, remaining) =>
        match parse remaining with
        | .error e => .error e
        | .ok instructions => .ok (instruction :: instructions) := by
  rw [parse]
  split
  next e heq => rw [heq]
  next instruction remaining heq => rw [heq]

theorem parse_cons_tab_lineFeed (rest : List Token) :
    parse (Token.Tab :: Token.LineFeed :: rest) =
      match parse_input_output rest with
      | .error e => .error e
      | .ok (instruction, remaining) =>
        match parse remaining with
        | .error e => .error e
        | .ok instructions => .ok (instruction :: instructions) := by
  rw [parse]
  split
  next e heq => rw [heq]
  next instruction remaining heq => rw [heq]

theorem parse_cons_lineFeed (rest : List Token) :
    parse (Token.LineFeed :: rest) =
      match parse_flow_control rest with
      | .error e => .error e
      | .ok (instruction, remaining) =>
        match parse remaining with
        | .error e => .error e
        | .ok instructions => .ok (instruction :: instructions) := by
  rw [parse]
  split
  next e heq => rw [heq]
  next instruction remaining heq => rw [heq]

theorem parse_prefix_aux :
    ∀ (n : Nat) (ts : List Token), ts.length ≤ n →
      ∀ (suffix : List Token) (instrs : List Instruction),
        parse (ts ++ suffix) = .ok instrs →
        (∃ instrs0, parse ts = Except.ok instrs0) ∨
        parse ts = Except.error ParseError.panicOutOfBounds := by
  intro n
  induction n with
  | zero =>
    intro ts hlen suffix instrs h
    have : ts = [] := List.eq_nil_of_length_eq_zero (Nat.le_zero.mp hlen)
    subst this
    exact Or.inl ⟨[], parse_nil⟩
  | succ n ih =>
    intro ts hlen suffix instrs h
    match ts with
    | [] => exact Or.inl ⟨[], parse_nil⟩
    | Token.Space :: rest =>
      simp only [List.cons_append] at h
      rw [parse_cons_space] at h
      cases hsm : parse_stack_manipulation (rest ++ suffix) with
      | error e => rw [hsm] at h; simp at h
      | ok p =>
        obtain ⟨instr, remaining⟩ := p
        rw [hsm] at h
        simp at h
        rcases parse_stack_manipulation_prefix rest suffix instr remaining hsm
          with hp | ⟨rem0, hok, hr0⟩
        · refine Or.inr ?_
          rw [parse_cons_space, hp]
        · cases hrec : parse remaining with
          | error e => rw [hrec] at h; simp at h
          | ok instrs2 =>
            have hlen0 : rem0.length ≤ n := by
              have := parse_stack_manipulation_length hok
              simp only [List.length_cons] at hlen
              omega
            have hrec2 : parse (rem0 ++ suffix) = .ok instrs2 := by rw [← hr0]; exact hrec
            rcases ih rem0 hlen0 suffix instrs2 hrec2 with ⟨instrs0, hok2⟩ | hpanic
            · refine Or.inl ⟨instr :: instrs0, ?_⟩
              rw [parse_cons_space]
              simp only [hok, hok2]
            · refine Or.inr ?_
              rw [parse_cons_space]
              simp only [hok, hpanic]
    | Token.Tab :: [] => exact Or.inr (by rw [parse])
    | Token.Tab :: Token.Space :: rest =>
      simp only [List.cons_append] at h
      rw [parse_cons_tab_space] at h
      cases hsm : parse_arithmetic (rest ++ suffix) with
      | error e => rw [hsm] at h; simp at h
      | ok p =>
        obtain ⟨instr, remaining⟩ := p
        rw [hsm] at h
        simp at h
        rcases parse_arithmetic_prefix rest suffix instr remaining hsm
          with hp | ⟨rem0, hok, hr0⟩
        · refine Or.inr ?_
          rw [parse_cons_tab_space, hp]
        · cases hrec : parse remaining with
          | error e => rw [hrec] at h; simp at h
          | ok instrs2 =>
            have hlen0 : rem0.length ≤ n := by
              have := parse_arithmetic_length hok
              simp only [List.length_cons] at hlen
              omega
            have hrec2 : parse (rem0 ++ suffix) = .ok instrs2 := by rw [← hr0]; exact hrec
            rcases ih rem0 hlen0 suffix instrs2 hrec2 with ⟨instrs0, hok2⟩ | hpanic
            · refine Or.inl ⟨instr :: instrs0, ?_⟩
              rw [parse_cons_tab_space]
              simp only [hok, hok2]
            · refine Or.inr ?_
              rw [parse_cons_tab_space]
              simp only [hok, hpanic]
    | Token.Tab :: Token.Tab :: rest =>
      simp only [List.cons_append] at h
      rw [parse_cons_tab_tab] at h
      cases hsm : parse_heap_access (rest ++ suffix) with
      | error e => rw [hsm] at h; simp at h
      | ok p =>
        obtain ⟨instr, remaining⟩ := p
        rw [hsm] at h
        simp at h
        rcases parse_heap_access_prefix rest suffix instr remaining hsm
          with hp | ⟨rem0, hok, hr0⟩
        · refine Or.inr ?_
          rw [parse_cons_tab_tab, hp]
        · cases hrec : parse remaining with
          | error e => rw [hrec] at h; simp at h
          | ok instrs2 =>
            have hlen0 : rem0.length ≤ n := by
              have := parse_heap_access_length hok
              simp only [List.length_cons] at hlen
              omega
            have hrec2 : parse (rem0 ++ suffix) = .ok instrs2 := by rw [← hr0]; exact hrec
            rcases ih rem0 hlen0 suffix instrs2 hrec2 with ⟨instrs0, hok2⟩ | hpanic
            · refine Or.inl ⟨instr :: instrs0, ?_⟩
              rw [parse_cons_tab_tab]
              simp only [hok, hok2]
            · refine Or.inr ?_
              rw [parse_cons_tab_tab]
              simp only [hok, hpanic]
    | Token.Tab :: Token.LineFeed :: rest =>
      simp only [List.cons_append] at h
      rw [parse_cons_tab_lineFeed] at h
      cases hsm : parse_input_output (rest ++ suffix) with
      | error e => rw [hsm] at h; simp at h
      | ok p =>
        obtain ⟨instr, remaining⟩ := p
        rw [hsm] at h
        simp at h
        rcases parse_input_output_prefix rest suffix instr remaining hsm
          with hp | ⟨rem0, hok, hr0⟩
        · refine Or.inr ?_
          rw [parse_cons_tab_lineFeed, hp]
        · cases hrec : parse remaining with
          | error e => rw [hrec] at h; simp at h
          | ok instrs2 =>
            have hlen0 : rem0.length ≤ n := by
              have := parse_input_output_length hok
              simp only [List.length_cons] at hlen
              omega
            have hrec2 : parse (rem0 ++ suffix) = .ok instrs2 := by rw [← hr0]; exact hrec
            rcases ih rem0 hlen0 suffix instrs2 hrec2 with ⟨instrs0, hok2⟩ | hpanic
            · refine Or.inl ⟨instr :: instrs0, ?_⟩
              rw [parse_cons_tab_lineFeed]
              simp only [hok, hok2]
            · refine Or.inr ?_
              rw [parse_cons_tab_lineFeed]
              simp only [hok, hpanic]
    | Token.LineFeed :: rest =>
      simp only [List.cons_append] at h
      rw [parse_cons_lineFeed] at h
      cases hsm : parse_flow_control (rest ++ suffix) with
      | error e => rw [hsm] at h; simp at h
      | ok p =>
        obtain ⟨instr, remaining⟩ := p
        rw [hsm] at h
        simp at h
        rcases parse_flow_control_prefix rest suffix instr remaining hsm
          with hp | ⟨rem0, hok, hr0⟩
        · refine Or.inr ?_
          rw [parse_cons_lineFeed, hp]
        · cases hrec : parse remaining with
          | error e => rw [hrec] at h; simp at h
          | ok instrs2 =>
            have hlen0 : rem0.length ≤ n := by
              have := parse_flow_control_length hok
              simp only [List.length_cons] at hlen
              omega
            have hrec2 : parse (rem0 ++ suffix) = .ok instrs2 := by rw [← hr0]; exact hrec
            rcases ih rem0 hlen0 suffix instrs2 hrec2 with ⟨instrs0, hok2⟩ | hpanic
            · refine Or.inl ⟨instr :: instrs0, ?_⟩
              rw [parse_cons_lineFeed]
              simp only [hok, hok2]
            · refine Or.inr ?_
              rw [parse_cons_lineFeed]
              simp only [hok, hpanic]

/-- Claim C4 (amended): a token sequence exhausted in the middle of an
instruction or in the middle of a numeric or label literal makes decoding
abort with the index-out-of-bounds panic of `Parser::advance` (whose
vector index is unchecked), not with a reported decode error.  Formally:
truncating any decodable token sequence at any point yields either a
complete successful decode (when the cut falls on an instruction
boundary) or the out-of-bounds panic — never a `bail!` decode error —
and, `parse` being total, decoding never continues past or loops on the
truncated input. -/
theorem c4_truncated_input_panics_not_decode_error (ts suffix : List Token)
    (instrs : List Instruction)
    (h : parse (ts ++ suffix) = Except.ok instrs) :
    ((∃ instrs0, parse ts = Except.ok instrs0) ∨
      parse ts = Except.error ParseError.panicOutOfBounds) ∧
    ∀ msg, parse ts ≠ Except.error (ParseError.decodeError msg) := by
  have hd := parse_prefix_aux ts.length ts le_rfl suffix instrs h
  refine ⟨hd, ?_⟩
  intro msg hmsg
  rcases hd with ⟨instrs0, h0⟩ | h0 <;> rw [h0] at hmsg <;> simp at hmsg

/-- Witness for C4's amended theorem: the decodable stream
`Space Space Space LineFeed` (a single `Push 0`) truncated just after the
sign of its numeric literal. -/
theorem c4_truncated_input_witness :
    parse ([Token.Space, Token.Space, Token.Space] ++ [Token.LineFeed]) =
      Except.ok [Instruction.Push 0] ∧
    parse [Token.Space, Token.Space, Token.Space] ≠
      Except.error (ParseError.decodeError "invalid arithmetic instruction") := by
  have hfull : parse ([Token.Space, Token.Space, Token.Space] ++ [Token.LineFeed]) =
      Except.ok [Instruction.Push 0] := by
    simp [parse_cons_space, parse_nil, parse_stack_manipulation, parse_number,
      parse_number_loop, wrap32]
  exact ⟨hfull,
    (c4_truncated_input_panics_not_decode_error [Token.Space, Token.Space, Token.Space]
      [Token.LineFeed] [Instruction.Push 0] hfull).2 "invalid arithmetic instruction"⟩

theorem bitsVal_cons (acc : Int) (b : Bool) (bs : List Bool) :
    bitsVal acc (b :: bs) = bitsVal (2 * acc + cond b 1 0) bs := rfl

theorem bitsVal_append (acc : Int) (bs : List Bool) (b : Bool) :
    bitsVal acc (bs ++ [b]) = 2 * bitsVal acc bs + cond b 1 0 := by
  simp [bitsVal, List.foldl_append]

theorem bitsVal_ge_self (bs : List Bool) :
    ∀ acc : Int, 0 ≤ acc → acc ≤ bitsVal acc bs := by
  induction bs with
  | nil => intro acc h; simp [bitsVal]
  | cons b bs ih =>
    intro acc h
    rw [bitsVal_cons]
    have h1 : acc ≤ 2 * acc + cond b 1 0 := by cases b <;> simp <;> omega
    have h2 : (0 : Int) ≤ 2 * acc + cond b 1 0 := by cases b <;> simp <;> omega
    exact le_trans h1 (ih _ h2)

theorem parse_number_loop_spec (bs : List Bool) :
    ∀ (acc : Int) (rest : List Token), 0 ≤ acc → bitsVal acc bs < 2 ^ 31 →
      parse_number_loop acc (bs.map boolTok ++ Token.LineFeed :: rest) =
        .ok (bitsVal acc bs, rest) := by
  induction bs with
  | nil =>
    intro acc rest h1 h2
    simp [parse_number_loop, bitsVal]
  | cons b bs ih =>
    intro acc rest h1 h2
    rw [bitsVal_cons] at h2 ⊢
    cases b with
    | false =>
      have h2f : bitsVal (2 * acc) bs < 2 ^ 31 := by simpa using h2
      have hge := bitsVal_ge_self bs (2 * acc) (by omega)
      have hw : wrap32 (2 * acc) = 2 * acc := wrap32_eq_self (by omega) (by omega)
      simp only [List.map_cons, boolTok, cond_false, List.cons_append, parse_number_loop, hw]
      have := ih (2 * acc) rest (by omega) h2f
      simpa using this
    | true =>
      have h2t : bitsVal (2 * acc + 1) bs < 2 ^ 31 := by simpa using h2
      have hge := bitsVal_ge_self bs (2 * acc + 1) (by omega)
      have hw : wrap32 (2 * acc) = 2 * acc := wrap32_eq_self (by omega) (by omega)
      simp only [List.map_cons, boolTok, cond_true, List.cons_append, parse_number_loop, hw]
      have := ih (2 * acc + 1) rest (by omega) h2t
      simpa using this

theorem natBits_val : ∀ n : Nat, bitsVal 0 (natBits n) = (n : Int) := by
  intro n
  induction n using Nat.strong_induction_on with
  | _ n ih =>
    by_cases h : n = 0
    · subst h
      rw [natBits]
      simp [bitsVal]
    · rw [natBits]
      rw [dif_neg h]
      rw [bitsVal_append]
      rw [ih (n / 2) (Nat.div_lt_self (Nat.pos_of_ne_zero h) (by omega))]
      rcases Nat.mod_two_eq_zero_or_one n with h2 | h2
      · have hd : decide (n % 2 = 1) = false := by simp [h2]
        rw [hd, cond_false]
        omega
      · have hd : decide (n % 2 = 1) = true := by simp [h2]
        rw [hd, cond_true]
        omega

/-- Claim C9: for every integer with `|n| ≤ 2^31 - 1`, decoding the
canonical literal encoding of `n` (sign token, binary digits of `|n|`,
`LineFeed` terminator) yields exactly `n` with no tokens left over.  No
shift or add in the digit loop wraps on such inputs, and the final
`value * sign` stays in range. -/
theorem c9_decode_canonical_encoding (n : Int) (h : n.natAbs ≤ 2 ^ 31 - 1) :
    parse_number (encodeNumber n) = .ok (n, []) := by
  have hval : bitsVal 0 (natBits n.natAbs) = (n.natAbs : Int) := natBits_val n.natAbs
  have hlt : bitsVal 0 (natBits n.natAbs) < 2 ^ 31 := by rw [hval]; omega
  have hloop := parse_number_loop_spec (natBits n.natAbs) 0 [] le_rfl hlt
  by_cases hn : 0 ≤ n
  · have he : encodeNumber n =
        Token.Space :: ((natBits n.natAbs).map boolTok ++ Token.LineFeed :: []) := by
      simp [encodeNumber, hn]
    have habs : (n.natAbs : Int) = n := Int.natAbs_of_nonneg hn
    rw [he, parse_number, hloop, hval, habs]
    show Except.ok (wrap32 (n * 1), []) = Except.ok (n, [])
    rw [mul_one, wrap32_eq_self (by omega) (by omega)]
  · have he : encodeNumber n =
        Token.Tab :: ((natBits n.natAbs).map boolTok ++ Token.LineFeed :: []) := by
      simp [encodeNumber, hn]
    have habs : (n.natAbs : Int) * -1 = n := by omega
    rw [he, parse_number, hloop, hval]
    show Except.ok (wrap32 ((n.natAbs : Int) * -1), []) = Except.ok (n, [])
    rw [habs, wrap32_eq_self (by omega) (by omega)]

/-- Witness for C9 at the negative boundary value `-(2^31 - 1)`. -/
theorem c9_decode_canonical_encoding_witness :
    ((-2147483647 : Int).natAbs ≤ 2 ^ 31 - 1) ∧
    parse_number (encodeNumber (-2147483647)) = .ok (-2147483647, []) :=
  ⟨by decide, c9_decode_canonical_encoding (-2147483647) (by decide)⟩

end Whitespace
